import Mathlib

/-!
Shallow embedding of the `cache` Go package (an in-process expiring key/value
store: `cache.go` plus the bucket layer in `bucket.go`).

Modelling conventions:
* `time.Time` values are modelled by their internal `ext` field — the signed
  64-bit count of seconds since January 1 of year 1 — as an unbounded `Int`,
  with the 64-bit wraparound made explicit (`wrap64`) at the two places Go
  performs int64 arithmetic on it: `time.Unix(sec, 0)` (which adds the
  Unix-epoch offset `unixToInternal` to `sec`) and `Time.Add`.  The zero
  `time.Time` is `0`.  `a.After(b)` is the strict comparison `b < a`
  (sub-second nanoseconds are dropped; no claim depends on them).
* The Go map `map[uint64]int` is modelled as an association list with the
  usual lookup / store / delete semantics; fingerprints are `Nat`.
* Each exported operation holds the store-wide mutex for its whole body, so
  an operation is modelled as an atomic state transformer; the background
  janitor's scan body (`clean`) is one more such transformer.
* Fallible operations return `Except CErr _ × Cache V`: the returned cache is
  the (possibly updated) store state after the call.
* Out-of-range slot indexing would panic in Go and is unreachable; `List.getD`
  with the tombstoned `defSlot` stands in for it.
-/

namespace JCache

/-- The two user-facing errors: `ErrCollision` and `ErrDNE`. -/
inductive CErr where
  | collision
  | dne
deriving DecidableEq

/-- `Slot` from cache.go: `Item interface{}`, `ExpiresAt time.Time`,
`empty bool` (the tombstone flag). -/
structure Slot (V : Type) where
  item : V
  expiresAt : Int
  empty : Bool
deriving DecidableEq

/-- `Cache` from cache.go: the slot sequence, the fingerprint index
(`keys map[uint64]int`), the cached soonest expiry `nextExp`, and the two
configuration fields that affect state transitions (`Refresh`,
`RefreshDuration`).  `CleanDuration` only schedules the janitor and
`OnExpires` runs outside the store, so neither is part of the state. -/
structure Cache (V : Type) where
  slots : List (Slot V)
  keys : List (Nat × Nat)
  nextExp : Int
  refresh : Bool
  refreshDuration : Int
deriving DecidableEq

/-- Stand-in for Go's out-of-range panic; its `empty := true` makes a
mapping that points past the slot array behave as a dead slot. -/
def defSlot {V : Type} [Inhabited V] : Slot V :=
  { item := default, expiresAt := 0, empty := true }

/-! Go `map[uint64]int` semantics over an association list. -/

/-- `idx, ok := m[k]` -/
def lookupKey : List (Nat × Nat) → Nat → Option Nat
  | [], _ => none
  | (k', v) :: rest, k => if k' = k then some v else lookupKey rest k

/-- `delete(m, k)` -/
def eraseKey : List (Nat × Nat) → Nat → List (Nat × Nat)
  | [], _ => []
  | p :: rest, k => if p.1 = k then eraseKey rest k else p :: eraseKey rest k

/-- `m[k] = v` -/
def insertKey (m : List (Nat × Nat)) (k v : Nat) : List (Nat × Nat) :=
  eraseKey m k ++ [(k, v)]

/-! Time model (see the header comment). -/

/-- Signed 64-bit wraparound. -/
def wrap64 (x : Int) : Int := (x + 2 ^ 63) % 2 ^ 64 - 2 ^ 63

/-- Seconds from January 1 of year 1 to the Unix epoch (Go's
`unixToInternal`). -/
def unixToInternal : Int := 62135596800

/-- `math.MaxInt64` -/
def maxInt64 : Int := 2 ^ 63 - 1

/-- `time.Unix(sec, 0)`: Go computes the internal seconds as the int64 sum
`sec + unixToInternal`, which wraps around. -/
def timeUnixSec (sec : Int) : Int := wrap64 (sec + unixToInternal)

/-- `t.Add(d)` at seconds granularity (int64 arithmetic, so it wraps). -/
def timeAdd (t d : Int) : Int := wrap64 (t + d)

/-- `a.After(b)` -/
def tAfter (a b : Int) : Bool := decide (b < a)

/-- The "never expires" sentinel stored by `Add` when `expiresIn == 0`:
`time.Unix(math.MaxInt64, 0)`. -/
def expiryNever : Int := timeUnixSec maxInt64

/-! FNV-1a hashing of keys (`hash/fnv`, `fnv.New64a`). -/

def fnvOffset : Nat := 14695981039346656037

def fnvPrime : Nat := 1099511628211

/-- 64-bit FNV-1a over a byte sequence. -/
def fnv64a (bs : List Nat) : Nat :=
  bs.foldl (fun h b => ((h ^^^ b) * fnvPrime) % 2 ^ 64) fnvOffset

/-- UTF-8 encoding of one character (Go strings are UTF-8 byte sequences). -/
def utf8Bytes (c : Char) : List Nat :=
  let n := c.toNat
  if n < 128 then [n]
  else if n < 2048 then [192 ||| (n >>> 6), 128 ||| (n &&& 63)]
  else if n < 65536 then
    [224 ||| (n >>> 12), 128 ||| ((n >>> 6) &&& 63), 128 ||| (n &&& 63)]
  else
    [240 ||| (n >>> 18), 128 ||| ((n >>> 12) &&& 63),
     128 ||| ((n >>> 6) &&& 63), 128 ||| (n &&& 63)]

/-- `hasher.Write([]byte(key)); hasher.Sum64()` -/
def fingerprint (s : String) : Nat :=
  fnv64a (s.data.flatMap utf8Bytes)

variable {V : Type} [Inhabited V]

/-- Index of the slot the Go reuse loop in `Cache.add` leaves in `idx`:
the loop `for i, c := range t.slots { if c.empty { t.slots[i] = ts; fit =
true; idx = i } }` does not break, so `idx` ends at the LAST empty slot
(`none` when no slot is empty, i.e. `fit` stays false). -/
def lastEmptyIdx : List (Slot V) → Option Nat
  | [] => none
  | s :: rest =>
    match lastEmptyIdx rest with
    | some j => some (j + 1)
    | none => if s.empty then some 0 else none

/-- The mutation `Cache.add` performs once the collision check has passed:
the reuse loop (which, having no `break`, writes the new slot value into
every empty slot and leaves `idx` at the last one) or the append, then the
`nextExp` update and the index record. -/
def addCore (c : Cache V) (key : Nat) (item : V) (expiresAt : Int) : Cache V :=
  let ts : Slot V := { item := item, expiresAt := expiresAt, empty := false }
  let p : List (Slot V) × Nat :=
    match lastEmptyIdx c.slots with
    | some i => (c.slots.map (fun s => if s.empty then ts else s), i)
    | none => (c.slots ++ [ts], c.slots.length)
  let nextExp' :=
    if tAfter c.nextExp expiresAt || p.1.length == 1 then expiresAt
    else c.nextExp
  { c with
    slots := p.1
    keys := insertKey c.keys key p.2
    nextExp := nextExp' }

/-- `Cache.add` (cache.go): collision check, then `addCore`. -/
def addC (c : Cache V) (key : Nat) (item : V) (expiresAt : Int) :
    Except CErr Unit × Cache V :=
  match lookupKey c.keys key with
  | some _ => (.error .collision, c)
  | none => (.ok (), addCore c key item expiresAt)

/-- `Cache.delete` (cache.go): tombstone the slot, drop the mapping. -/
def deleteC (c : Cache V) (key : Nat) : Except CErr Unit × Cache V :=
  match lookupKey c.keys key with
  | none => (.error .dne, c)
  | some idx =>
    (.ok (), { c with
      slots := c.slots.set idx { c.slots.getD idx defSlot with empty := true },
      keys := eraseKey c.keys key })

/-- `Cache.extend` (cache.go): add `extend` to the slot's expiry and lower
`nextExp` if the new expiry is sooner. -/
def extendC (c : Cache V) (key : Nat) (d : Int) : Except CErr Unit × Cache V :=
  match lookupKey c.keys key with
  | none => (.error .dne, c)
  | some idx =>
    let s := c.slots.getD idx defSlot
    let newExp := timeAdd s.expiresAt d
    let slots' := c.slots.set idx { s with expiresAt := newExp }
    let nextExp' := if tAfter c.nextExp newExp then newExp else c.nextExp
    (.ok (), { c with slots := slots', nextExp := nextExp' })

/-- `Cache.update` (cache.go): overwrite the slot's `Item` in place. -/
def updateC (c : Cache V) (key : Nat) (item : V) : Except CErr Unit × Cache V :=
  match lookupKey c.keys key with
  | none => (.error .dne, c)
  | some idx =>
    (.ok (), { c with
      slots := c.slots.set idx { c.slots.getD idx defSlot with item := item } })

/-- `Cache.get` (cache.go): fail if unmapped; if the mapped slot is
tombstoned, drop the stale mapping and fail; otherwise return the item read
before the optional refresh-extend.  Note: no comparison against the
expiration time happens here. -/
def getC (c : Cache V) (key : Nat) : Except CErr V × Cache V :=
  match lookupKey c.keys key with
  | none => (.error .dne, c)
  | some idx =>
    let item := c.slots.getD idx defSlot
    if item.empty then (.error .dne, { c with keys := eraseKey c.keys key })
    else if c.refresh then
      let r := extendC c key c.refreshDuration
      match r.1 with
      | .error e => (.error e, r.2)
      | .ok _ => (.ok item.item, r.2)
    else (.ok item.item, c)

/-- Body of the scan loop in `Cache.clean`, threading the Go locals
(`nearestExp`, `firstNonEmpty`) through the traversal.  Returns the updated
slot sequence, the `expired` batch (in index order) and the final
`nearestExp`. -/
def cleanLoop (now : Int) :
    List (Slot V) → Int → Bool → List (Slot V) × List (Slot V) × Int
  | [], nearest, _ => ([], [], nearest)
  | s :: rest, nearest, firstNonEmpty =>
    if s.empty then
      let r := cleanLoop now rest nearest firstNonEmpty
      (s :: r.1, r.2.1, r.2.2)
    else if tAfter now s.expiresAt then
      let r := cleanLoop now rest nearest firstNonEmpty
      ({ s with empty := true } :: r.1, s :: r.2.1, r.2.2)
    else
      let n1 := if firstNonEmpty then s.expiresAt else nearest
      let n2 := if tAfter n1 s.expiresAt then s.expiresAt else n1
      let r := cleanLoop now rest n2 false
      (s :: r.1, r.2.1, r.2.2)

/-- `Cache.clean` (cache.go, the janitor's scan): tombstone every non-empty
slot whose expiry has passed, recompute `nextExp` as the minimum expiry of
the surviving non-empty slots (the zero time if none survive), and return
the expired batch. -/
def cleanC (c : Cache V) (now : Int) : Cache V × List (Slot V) :=
  let r := cleanLoop now c.slots 0 true
  ({ c with slots := r.1, nextExp := r.2.2 }, r.2.1)

/-- `Cache.Add` (cache.go, exported): hash the key, compute
`expiresAt = time.Unix(math.MaxInt64, 0)` when `expiresIn == 0` and
`time.Now().UTC().Add(expiresIn)` otherwise, then call `add`. -/
def AddT (c : Cache V) (key : String) (item : V) (expiresIn now : Int) :
    Except CErr Unit × Cache V :=
  let expiresAt := if expiresIn = 0 then timeUnixSec maxInt64
                   else timeAdd now expiresIn
  addC c (fingerprint key) item expiresAt

/-- The store `NewCache` builds: no slots, no mappings, zero `nextExp`;
`RefreshDuration` defaults to 1 second when `Refresh` is set and no duration
was supplied. -/
def initC (V : Type) [Inhabited V] (refresh : Bool) (rd : Int) : Cache V :=
  { slots := [], keys := [], nextExp := 0, refresh := refresh,
    refreshDuration := if refresh ∧ rd = 0 then 1 else rd }

/-- One serialized operation on the store (each Go call holds the store
mutex for its whole body, the janitor included). -/
inductive Op (V : Type) where
  | add (key : Nat) (item : V) (expiresAt : Int)
  | get (key : Nat)
  | update (key : Nat) (item : V)
  | extend (key : Nat) (d : Int)
  | delete (key : Nat)
  | clean (now : Int)

/-- The state after one operation (failed calls leave the state they
returned with, which for early-error paths is the input state). -/
def stepOp (c : Cache V) : Op V → Cache V
  | .add k v e => (addC c k v e).2
  | .get k => (getC c k).2
  | .update k v => (updateC c k v).2
  | .extend k d => (extendC c k d).2
  | .delete k => (deleteC c k).2
  | .clean now => (cleanC c now).1

/-- The state after a sequence of operations. -/
def runOps (c : Cache V) (ops : List (Op V)) : Cache V :=
  ops.foldl stepOp c

/-! The bucket layer (bucket.go).  A `Bucket` holds its name and its ordered
fingerprint membership list; the back-reference to the cache is passed
explicitly. -/

structure Bucket where
  name : String
  list : List Nat
deriving DecidableEq

/-- The composite string a bucket hashes: `pk := b.name + "-" + key`. -/
def bucketCompositeKey (name key : String) : String :=
  name ++ "-" ++ key

/-- The separator character of `bucketCompositeKey`. -/
def sepChar : Char := '-'

/-- `Bucket.Add` (bucket.go): hash the composite key, append the
fingerprint to the membership list unless already present, set
`expiresAt = time.Now().UTC().Add(expiresIn)` — with no special case for
`expiresIn == 0` — and delegate to the store's `add`. -/
def bucketAdd (b : Bucket) (c : Cache V) (key : String) (item : V)
    (expiresIn now : Int) : (Except CErr Unit × Cache V) × Bucket :=
  let hk := fingerprint (bucketCompositeKey b.name key)
  let b' := if b.list.contains hk then b else { b with list := b.list ++ [hk] }
  let expiresAt := timeAdd now expiresIn
  (addC c hk item expiresAt, b')

/-- `Bucket.Get` (bucket.go): pure delegation with the composite key. -/
def bucketGet (b : Bucket) (c : Cache V) (key : String) :
    Except CErr V × Cache V :=
  getC c (fingerprint (bucketCompositeKey b.name key))

/-- `bucketIterator` (bucket.go): the bucket's membership list, the
fingerprint and item captured by the last `Next`, and the cursor.  Zero
values as in Go (`key = 0`, `item = nil` modelled as `none`,
`position = 0`). -/
structure BucketIter (V : Type) where
  list : List Nat
  key : Nat
  item : Option V
deriving DecidableEq

/-- A fresh iterator, as returned by `Bucket.Iterator()`. -/
def freshIter (l : List Nat) : BucketIter V × Nat :=
  ({ list := l, key := 0, item := none }, 0)

/-- `item, _ := get(key)`: the interface value is `nil` exactly on error. -/
def resultItem : Except CErr V → Option V
  | .ok v => some v
  | .error _ => none

/-- `bucketIterator.Next` (bucket.go): while a position remains, resolve the
fingerprint through the store's `get` — errors are dropped, the cursor
advances regardless — and return `true`; `false` once exhausted.  The
iterator state is the pair (fields, position). -/
def iterNext (it : BucketIter V) (pos : Nat) (c : Cache V) :
    Bool × (BucketIter V × Nat) × Cache V :=
  if pos < it.list.length then
    let key := it.list.getD pos 0
    let r := getC c key
    (true, ({ it with key := key, item := resultItem r.1 }, pos + 1), r.2)
  else
    (false, (it, pos), c)

/-- Iterator/cache state after `n` calls to `Next` (results discarded). -/
def iterAdvance : Nat → (BucketIter V × Nat) × Cache V →
    (BucketIter V × Nat) × Cache V
  | 0, p => p
  | n + 1, p =>
    let r := iterNext p.1.1 p.1.2 p.2
    iterAdvance n r.2

/-- What one janitor scan does to a single slot (the pointwise effect of the
loop in `Cache.clean`). -/
def cleanSlot (now : Int) (s : Slot V) : Slot V :=
  if s.empty then s
  else if tAfter now s.expiresAt then { s with empty := true }
  else s

/-- The `nextExp` invariant: `nextExp` is a lower bound on the expiry of
every live slot, i.e. every slot that is index-mapped and not tombstoned. -/
def CacheInv (c : Cache V) : Prop :=
  ∀ k idx, lookupKey c.keys k = some idx →
    (c.slots.getD idx defSlot).empty = false →
    c.nextExp ≤ (c.slots.getD idx defSlot).expiresAt

/-! Concrete fixture states used to evaluate the operations. -/

/-- A store holding two tombstoned slots and no mappings. -/
def cTwoTomb : Cache Nat :=
  { slots := [{ item := 0, expiresAt := 0, empty := true },
              { item := 0, expiresAt := 0, empty := true }],
    keys := [], nextExp := 0, refresh := false, refreshDuration := 0 }

/-- The store after `add` of fingerprint 3 with value 7 expiring at time 5. -/
def cAfterAdd : Cache Nat := (addC (initC Nat false 0) 3 7 5).2

/-- `cAfterAdd` after a janitor scan at time 10: the slot is tombstoned but
the mapping for fingerprint 3 is still present. -/
def cStale : Cache Nat := (cleanC cAfterAdd 10).1

/-- A store whose only slot is tombstoned yet still index-mapped. -/
def cDeadMapped : Cache Nat :=
  { slots := [{ item := 7, expiresAt := 5, empty := true }],
    keys := [(3, 0)], nextExp := 0, refresh := false, refreshDuration := 0 }

/-! ### Association-list (Go map) lemmas -/

theorem lookupKey_eraseKey_self (m : List (Nat × Nat)) (k : Nat) :
    lookupKey (eraseKey m k) k = none := by
  induction m with
  | nil => rfl
  | cons p rest ih =>
    by_cases h : p.1 = k
    · simpa [eraseKey, h] using ih
    · simpa [eraseKey, lookupKey, h] using ih

theorem lookupKey_eraseKey_ne (m : List (Nat × Nat)) (k k' : Nat) (h : k' ≠ k) :
    lookupKey (eraseKey m k) k' = lookupKey m k' := by
  induction m with
  | nil => rfl
  | cons p rest ih =>
    simp only [eraseKey, lookupKey]
    by_cases hp : p.1 = k
    · have hnk : ¬ p.1 = k' := by omega
      rw [if_pos hp, if_neg hnk, ih]
    · rw [if_neg hp]
      simp only [lookupKey]
      by_cases hp' : p.1 = k'
      · rw [if_pos hp', if_pos hp']
      · rw [if_neg hp', if_neg hp', ih]

theorem lookupKey_append_of_none (l1 l2 : List (Nat × Nat)) (k : Nat)
    (h : lookupKey l1 k = none) :
    lookupKey (l1 ++ l2) k = lookupKey l2 k := by
  induction l1 with
  | nil => rfl
  | cons p rest ih =>
    simp only [lookupKey, List.cons_append] at h ⊢
    by_cases hp : p.1 = k
    · rw [if_pos hp] at h
      exact absurd h (by simp)
    · rw [if_neg hp] at h ⊢
      exact ih h

theorem lookupKey_append_of_some (l1 l2 : List (Nat × Nat)) (k v : Nat)
    (h : lookupKey l1 k = some v) :
    lookupKey (l1 ++ l2) k = some v := by
  induction l1 with
  | nil => simp [lookupKey] at h
  | cons p rest ih =>
    simp only [lookupKey, List.cons_append] at h ⊢
    by_cases hp : p.1 = k
    · rw [if_pos hp] at h ⊢
      exact h
    · rw [if_neg hp] at h ⊢
      exact ih h

theorem lookupKey_insertKey_self (m : List (Nat × Nat)) (k v : Nat) :
    lookupKey (insertKey m k v) k = some v := by
  rw [insertKey, lookupKey_append_of_none _ _ _ (lookupKey_eraseKey_self m k)]
  simp [lookupKey]

theorem lookupKey_insertKey_ne (m : List (Nat × Nat)) (k v k' : Nat) (h : k' ≠ k) :
    lookupKey (insertKey m k v) k' = lookupKey m k' := by
  rw [insertKey]
  cases hm : lookupKey m k' with
  | none =>
    have hm' : lookupKey (eraseKey m k) k' = none := by
      rw [lookupKey_eraseKey_ne m k k' h, hm]
    rw [lookupKey_append_of_none _ _ _ hm']
    simp only [lookupKey]
    rw [if_neg (by omega : ¬ k = k')]
  | some v' =>
    have hm' : lookupKey (eraseKey m k) k' = some v' := by
      rw [lookupKey_eraseKey_ne m k k' h, hm]
    rw [lookupKey_append_of_some _ _ _ _ hm']

/-! ### List indexing lemmas -/

theorem getD_ge {α : Type} (l : List α) (i : Nat) (d : α) (h : l.length ≤ i) :
    l.getD i d = d := by
  induction l generalizing i with
  | nil => simp [List.getD]
  | cons a rest ih =>
    cases i with
    | zero => simp at h
    | succ j =>
      simp only [List.length_cons] at h
      simpa using ih j (by omega)

theorem getD_map_lt {α β : Type} (f : α → β) (l : List α) (i : Nat) (d : β) (d' : α)
    (h : i < l.length) : (l.map f).getD i d = f (l.getD i d') := by
  induction l generalizing i with
  | nil => simp at h
  | cons a rest ih =>
    cases i with
    | zero => simp
    | succ j =>
      simp only [List.length_cons] at h
      simpa using ih j (by omega)

theorem getD_append_lt {α : Type} (l1 l2 : List α) (i : Nat) (d : α)
    (h : i < l1.length) : (l1 ++ l2).getD i d = l1.getD i d := by
  induction l1 generalizing i with
  | nil => simp at h
  | cons a rest ih =>
    cases i with
    | zero => simp
    | succ j =>
      simp only [List.length_cons] at h
      simpa using ih j (by omega)

theorem getD_append_len {α : Type} (l : List α) (a : α) (d : α) :
    (l ++ [a]).getD l.length d = a := by
  induction l with
  | nil => rfl
  | cons b rest ih => simp [ih]

theorem getD_set_self {α : Type} (l : List α) (i : Nat) (a d : α)
    (h : i < l.length) : (l.set i a).getD i d = a := by
  induction l generalizing i with
  | nil => simp at h
  | cons b rest ih =>
    cases i with
    | zero => simp
    | succ j =>
      simp only [List.length_cons] at h
      simpa [List.set] using ih j (by omega)

theorem getD_set_ne {α : Type} (l : List α) (i j : Nat) (a d : α)
    (h : i ≠ j) : (l.set i a).getD j d = l.getD j d := by
  induction l generalizing i j with
  | nil => simp [List.set]
  | cons b rest ih =>
    cases i with
    | zero =>
      cases j with
      | zero => omega
      | succ j' => simp [List.set]
    | succ i' =>
      cases j with
      | zero => simp [List.set]
      | succ j' => simpa [List.set] using ih i' j' (by omega)

theorem set_of_ge {α : Type} (l : List α) (i : Nat) (a : α) (h : l.length ≤ i) :
    l.set i a = l := by
  induction l generalizing i with
  | nil => simp
  | cons b rest ih =>
    cases i with
    | zero => simp at h
    | succ j =>
      simp only [List.length_cons] at h
      simpa [List.set] using ih j (by omega)

theorem getD_mem {α : Type} (l : List α) (i : Nat) (d : α) (h : i < l.length) :
    l.getD i d ∈ l := by
  induction l generalizing i with
  | nil => simp at h
  | cons a rest ih =>
    cases i with
    | zero => simp
    | succ j =>
      simp only [List.length_cons] at h
      simp only [List.getD_cons_succ]
      exact List.mem_cons_of_mem a (ih j (by omega))

theorem lt_length_of_getD_nonempty {V : Type} [Inhabited V] (l : List (Slot V))
    (i : Nat) (h : (l.getD i defSlot).empty = false) : i < l.length := by
  by_contra hc
  rw [getD_ge l i defSlot (by omega)] at h
  simp [defSlot] at h

/-! ### Lemmas about the slot-reuse scan and the janitor scan -/

theorem lastEmptyIdx_spec {V : Type} [Inhabited V] (l : List (Slot V)) (i : Nat)
    (h : lastEmptyIdx l = some i) :
    i < l.length ∧ (l.getD i defSlot).empty = true := by
  induction l generalizing i with
  | nil => simp [lastEmptyIdx] at h
  | cons s rest ih =>
    rw [lastEmptyIdx] at h
    cases hr : lastEmptyIdx rest with
    | some j =>
      rw [hr] at h
      simp only [Option.some.injEq] at h
      obtain ⟨hj1, hj2⟩ := ih j hr
      subst h
      constructor
      · simp
        omega
      · simpa using hj2
    | none =>
      rw [hr] at h
      by_cases hs : s.empty
      · rw [if_pos hs] at h
        simp only [Option.some.injEq] at h
        subst h
        simp [hs]
      · rw [if_neg hs] at h
        simp at h

theorem cleanLoop_slots {V : Type} [Inhabited V] (now : Int) (l : List (Slot V))
    (x : Int) (b : Bool) :
    (cleanLoop now l x b).1 = l.map (cleanSlot now) := by
  induction l generalizing x b with
  | nil => rfl
  | cons s rest ih =>
    rw [cleanLoop]
    by_cases hs : s.empty
    · simp only [hs, if_true]
      simp [cleanSlot, hs, ih]
    · simp only [hs, if_false]
      by_cases ht : tAfter now s.expiresAt
      · simp [ht, cleanSlot, hs, ih]
      · simp [ht, cleanSlot, hs, ih]

theorem cleanLoop_nearest {V : Type} [Inhabited V] (now : Int) (l : List (Slot V)) :
    ∀ (x : Int) (b : Bool),
      (b = false → (cleanLoop now l x b).2.2 ≤ x) ∧
      (∀ s ∈ l, s.empty = false → tAfter now s.expiresAt = false →
        (cleanLoop now l x b).2.2 ≤ s.expiresAt) := by
  induction l with
  | nil =>
    intro x b
    constructor
    · intro _
      simp [cleanLoop]
    · intro s hs
      simp at hs
  | cons s rest ih =>
    intro x b
    rw [cleanLoop]
    by_cases hs : s.empty
    · simp only [hs, if_true]
      constructor
      · exact (ih x b).1
      · intro s' hs' he ht
        rcases List.mem_cons.mp hs' with h | h
        · subst h
          simp [hs] at he
        · exact (ih x b).2 s' h he ht
    · simp only [hs, if_false]
      by_cases ht : tAfter now s.expiresAt
      · simp only [ht, if_true]
        constructor
        · exact (ih x b).1
        · intro s' hs' he ht'
          rcases List.mem_cons.mp hs' with h | h
          · subst h
            rw [ht] at ht'
            simp at ht'
          · exact (ih x b).2 s' h he ht'
      · simp only [ht, if_false]
        have hn2 : (if tAfter (if b then s.expiresAt else x) s.expiresAt
            then s.expiresAt else (if b then s.expiresAt else x)) ≤ s.expiresAt := by
          by_cases hb : tAfter (if b then s.expiresAt else x) s.expiresAt
          · rw [if_pos hb]
          · rw [if_neg hb]
            simp only [tAfter, decide_eq_true_eq] at hb
            omega
        have hn2x : b = false → (if tAfter (if b then s.expiresAt else x) s.expiresAt
            then s.expiresAt else (if b then s.expiresAt else x)) ≤ x := by
          intro hb
          subst hb
          simp only [Bool.false_eq_true, if_false]
          by_cases hbb : tAfter x s.expiresAt
          · rw [if_pos hbb]
            simp only [tAfter, decide_eq_true_eq] at hbb
            omega
          · rw [if_neg hbb]
        constructor
        · intro hb
          exact le_trans ((ih _ false).1 rfl) (hn2x hb)
        · intro s' hs' he ht'
          rcases List.mem_cons.mp hs' with h | h
          · subst h
            exact le_trans ((ih _ false).1 rfl) hn2
          · exact (ih _ false).2 s' h he ht'

/-! ### Characterization of the store operations -/

theorem ite_tAfter_le_new (ne x : Int) (cond : Bool) :
    (if (tAfter ne x || cond) = true then x else ne) ≤ x := by
  by_cases h : (tAfter ne x || cond) = true
  · rw [if_pos h]
  · rw [if_neg h]
    simp only [Bool.or_eq_true, not_or, Bool.not_eq_true] at h
    have h1 := h.1
    simp only [tAfter, decide_eq_false_iff_not, not_lt] at h1
    exact h1

theorem ite_tAfter_le_old (ne x old : Int) (cond : Bool) (hOld : ne ≤ old)
    (hcond : cond = true → False) :
    (if (tAfter ne x || cond) = true then x else ne) ≤ old := by
  by_cases h : (tAfter ne x || cond) = true
  · rw [if_pos h]
    rcases Bool.or_eq_true_iff.mp h with h1 | h1
    · simp only [tAfter, decide_eq_true_eq] at h1
      omega
    · exact absurd h1 hcond
  · rw [if_neg h]
    exact hOld

theorem addC_of_mapped {V : Type} [Inhabited V] (c : Cache V) (k idx : Nat)
    (v : V) (e : Int) (h : lookupKey c.keys k = some idx) :
    addC c k v e = (.error .collision, c) := by
  simp [addC, h]

theorem addC_of_none {V : Type} [Inhabited V] (c : Cache V) (k : Nat)
    (v : V) (e : Int) (h : lookupKey c.keys k = none) :
    addC c k v e = (.ok (), addCore c k v e) := by
  simp [addC, h]

theorem addC_ok_of_none {V : Type} [Inhabited V] (c : Cache V) (k : Nat)
    (v : V) (e : Int) (h : lookupKey c.keys k = none) :
    (addC c k v e).1 = .ok () := by
  rw [addC_of_none c k v e h]

theorem addC_none_of_ok {V : Type} [Inhabited V] (c : Cache V) (k : Nat)
    (v : V) (e : Int) (h : (addC c k v e).1 = .ok ()) :
    lookupKey c.keys k = none := by
  cases hl : lookupKey c.keys k with
  | none => rfl
  | some i =>
    rw [addC_of_mapped c k i v e hl] at h
    simp at h

theorem addCore_fit {V : Type} [Inhabited V] (c : Cache V) (k : Nat) (v : V)
    (e : Int) (i : Nat) (hle : lastEmptyIdx c.slots = some i) :
    addCore c k v e = { c with
      slots := c.slots.map (fun s => if s.empty then ⟨v, e, false⟩ else s)
      keys := insertKey c.keys k i
      nextExp := if (tAfter c.nextExp e ||
          ((c.slots.map (fun s =>
            if s.empty then (⟨v, e, false⟩ : Slot V) else s)).length == 1)) = true
        then e else c.nextExp } := by
  simp only [addCore, hle]

theorem addCore_nofit {V : Type} [Inhabited V] (c : Cache V) (k : Nat) (v : V)
    (e : Int) (hle : lastEmptyIdx c.slots = none) :
    addCore c k v e = { c with
      slots := c.slots ++ [⟨v, e, false⟩]
      keys := insertKey c.keys k c.slots.length
      nextExp := if (tAfter c.nextExp e ||
          ((c.slots ++ [(⟨v, e, false⟩ : Slot V)]).length == 1)) = true
        then e else c.nextExp } := by
  simp only [addCore, hle]

/-- On success, `add` records a mapping to a slot holding exactly the new
entry. -/
theorem addC_spec {V : Type} [Inhabited V] (c : Cache V) (k : Nat) (v : V)
    (e : Int) (h : lookupKey c.keys k = none) :
    ∃ idx, lookupKey (addC c k v e).2.keys k = some idx ∧
      (addC c k v e).2.slots.getD idx defSlot = ⟨v, e, false⟩ := by
  rw [addC_of_none c k v e h]
  cases hle : lastEmptyIdx c.slots with
  | some i =>
    obtain ⟨hi, hemp⟩ := lastEmptyIdx_spec c.slots i hle
    refine ⟨i, ?_, ?_⟩
    · show lookupKey (addCore c k v e).keys k = some i
      rw [addCore_fit c k v e i hle]
      exact lookupKey_insertKey_self _ _ _
    · show (addCore c k v e).slots.getD i defSlot = _
      rw [addCore_fit c k v e i hle]
      show (c.slots.map (fun s => if s.empty then ⟨v, e, false⟩ else s)).getD i
        defSlot = _
      rw [getD_map_lt _ _ _ _ defSlot hi, hemp]
      simp
  | none =>
    refine ⟨c.slots.length, ?_, ?_⟩
    · show lookupKey (addCore c k v e).keys k = some c.slots.length
      rw [addCore_nofit c k v e hle]
      exact lookupKey_insertKey_self _ _ _
    · show (addCore c k v e).slots.getD c.slots.length defSlot = _
      rw [addCore_nofit c k v e hle]
      exact getD_append_len _ _ _

/-- `get` on a mapping to a tombstoned slot: stale mapping dropped,
`ErrDNE`. -/
theorem getC_mapped_dead {V : Type} [Inhabited V] (c : Cache V) (k idx : Nat)
    (h1 : lookupKey c.keys k = some idx)
    (h2 : (c.slots.getD idx defSlot).empty = true) :
    getC c k = (.error .dne, { c with keys := eraseKey c.keys k }) := by
  simp only [getC, h1]
  rw [if_pos h2]

/-- `get` on a mapping to a live slot returns the stored item (whether or
not refresh-on-access is configured, and regardless of the expiration
time). -/
theorem getC_mapped_live {V : Type} [Inhabited V] (c : Cache V) (k idx : Nat)
    (h1 : lookupKey c.keys k = some idx)
    (h2 : (c.slots.getD idx defSlot).empty = false) :
    (getC c k).1 = .ok ((c.slots.getD idx defSlot).item) := by
  simp only [getC, h1]
  rw [if_neg (by rw [h2]; simp)]
  by_cases hr : c.refresh
  · rw [if_pos hr]
    simp only [extendC, h1]
  · rw [if_neg hr]

theorem wrap64_eq_self (x : Int) (h1 : -(2 ^ 63) ≤ x) (h2 : x < 2 ^ 63) :
    wrap64 x = x := by
  rw [wrap64, Int.emod_eq_of_lt (by omega) (by omega)]
  omega

/-! ### Preservation of the `nextExp` invariant by every operation -/

theorem ite_tAfter_le_new' (ne x : Int) :
    (if tAfter ne x = true then x else ne) ≤ x := by
  by_cases h : tAfter ne x = true
  · rw [if_pos h]
  · rw [if_neg h]
    simp only [tAfter, decide_eq_true_eq] at h
    omega

theorem ite_tAfter_le_old' (ne x old : Int) (hOld : ne ≤ old) :
    (if tAfter ne x = true then x else ne) ≤ old := by
  by_cases h : tAfter ne x = true
  · rw [if_pos h]
    simp only [tAfter, decide_eq_true_eq] at h
    omega
  · rw [if_neg h]
    exact hOld

theorem inv_extendC {V : Type} [Inhabited V] (c : Cache V) (key : Nat) (d : Int)
    (hInv : CacheInv c) : CacheInv (extendC c key d).2 := by
  cases hl : lookupKey c.keys key with
  | none =>
    simp only [extendC, hl]
    exact hInv
  | some idx =>
    simp only [extendC, hl]
    intro k' idx' h1 h2
    dsimp only at h1 h2 ⊢
    by_cases hin : idx < c.slots.length
    · by_cases he : idx' = idx
      · subst he
        rw [getD_set_self _ _ _ _ hin] at h2 ⊢
        dsimp only at h2 ⊢
        exact ite_tAfter_le_new' _ _
      · rw [getD_set_ne _ _ _ _ _ (fun hh => he hh.symm)] at h2 ⊢
        exact ite_tAfter_le_old' _ _ _ (hInv k' idx' h1 h2)
    · rw [set_of_ge _ _ _ (by omega)] at h2 ⊢
      exact ite_tAfter_le_old' _ _ _ (hInv k' idx' h1 h2)

theorem inv_updateC {V : Type} [Inhabited V] (c : Cache V) (key : Nat) (v : V)
    (hInv : CacheInv c) : CacheInv (updateC c key v).2 := by
  cases hl : lookupKey c.keys key with
  | none =>
    simp only [updateC, hl]
    exact hInv
  | some idx =>
    simp only [updateC, hl]
    intro k' idx' h1 h2
    dsimp only at h1 h2 ⊢
    by_cases hin : idx < c.slots.length
    · by_cases he : idx' = idx
      · subst he
        rw [getD_set_self _ _ _ _ hin] at h2 ⊢
        dsimp only at h2 ⊢
        exact hInv k' idx' h1 h2
      · rw [getD_set_ne _ _ _ _ _ (fun hh => he hh.symm)] at h2 ⊢
        exact hInv k' idx' h1 h2
    · rw [set_of_ge _ _ _ (by omega)] at h2 ⊢
      exact hInv k' idx' h1 h2

theorem inv_deleteC {V : Type} [Inhabited V] (c : Cache V) (key : Nat)
    (hInv : CacheInv c) : CacheInv (deleteC c key).2 := by
  cases hl : lookupKey c.keys key with
  | none =>
    simp only [deleteC, hl]
    exact hInv
  | some idx =>
    simp only [deleteC, hl]
    intro k' idx' h1 h2
    dsimp only at h1 h2 ⊢
    by_cases hk : k' = key
    · subst hk
      rw [lookupKey_eraseKey_self] at h1
      simp at h1
    · rw [lookupKey_eraseKey_ne _ _ _ hk] at h1
      by_cases hin : idx < c.slots.length
      · by_cases he : idx' = idx
        · subst he
          rw [getD_set_self _ _ _ _ hin] at h2
          simp at h2
        · rw [getD_set_ne _ _ _ _ _ (fun hh => he hh.symm)] at h2 ⊢
          exact hInv k' idx' h1 h2
      · rw [set_of_ge _ _ _ (by omega)] at h2 ⊢
        exact hInv k' idx' h1 h2

theorem inv_getC {V : Type} [Inhabited V] (c : Cache V) (key : Nat)
    (hInv : CacheInv c) : CacheInv (getC c key).2 := by
  cases hl : lookupKey c.keys key with
  | none =>
    simp only [getC, hl]
    exact hInv
  | some idx =>
    simp only [getC, hl]
    by_cases hemp : (c.slots.getD idx defSlot).empty = true
    · rw [if_pos hemp]
      intro k' idx' h1 h2
      dsimp only at h1 h2 ⊢
      by_cases hk : k' = key
      · subst hk
        rw [lookupKey_eraseKey_self] at h1
        simp at h1
      · rw [lookupKey_eraseKey_ne _ _ _ hk] at h1
        exact hInv k' idx' h1 h2
    · rw [if_neg hemp]
      by_cases hr : c.refresh
      · rw [if_pos hr]
        cases hx : (extendC c key c.refreshDuration).1 with
        | error er =>
          simp only [hx]
          exact inv_extendC c key c.refreshDuration hInv
        | ok u =>
          simp only [hx]
          exact inv_extendC c key c.refreshDuration hInv
      · rw [if_neg hr]
        exact hInv

theorem inv_cleanC {V : Type} [Inhabited V] (c : Cache V) (now : Int) :
    CacheInv (cleanC c now).1 := by
  intro k' idx' h1 h2
  dsimp only [cleanC] at h1 h2 ⊢
  rw [cleanLoop_slots] at h2 ⊢
  by_cases hin : idx' < c.slots.length
  · rw [getD_map_lt _ _ _ _ defSlot hin] at h2 ⊢
    by_cases hs : (c.slots.getD idx' defSlot).empty = true
    · rw [cleanSlot, if_pos hs] at h2
      rw [hs] at h2
      simp at h2
    · rw [cleanSlot, if_neg hs] at h2 ⊢
      by_cases ht : tAfter now (c.slots.getD idx' defSlot).expiresAt = true
      · rw [if_pos ht] at h2
        simp at h2
      · rw [if_neg ht] at h2 ⊢
        have hmem : c.slots.getD idx' defSlot ∈ c.slots := getD_mem _ _ _ hin
        have hemp' : (c.slots.getD idx' defSlot).empty = false := by
          simp only [Bool.not_eq_true] at hs
          exact hs
        have htf : tAfter now (c.slots.getD idx' defSlot).expiresAt = false := by
          simp only [Bool.not_eq_true] at ht
          exact ht
        exact (cleanLoop_nearest now c.slots 0 true).2 _ hmem hemp' htf
  · rw [getD_ge _ _ _ (by rw [List.length_map]; omega)] at h2
    simp [defSlot] at h2

theorem inv_addC {V : Type} [Inhabited V] (c : Cache V) (k : Nat) (v : V)
    (e : Int) (hInv : CacheInv c) : CacheInv (addC c k v e).2 := by
  cases hl : lookupKey c.keys k with
  | some i =>
    rw [addC_of_mapped c k i v e hl]
    exact hInv
  | none =>
    rw [addC_of_none c k v e hl]
    show CacheInv (addCore c k v e)
    cases hle : lastEmptyIdx c.slots with
    | some i =>
      obtain ⟨hi, hemp⟩ := lastEmptyIdx_spec c.slots i hle
      rw [addCore_fit c k v e i hle]
      intro k' idx' h1 h2
      dsimp only at h1 h2 ⊢
      by_cases hk : k' = k
      · subst hk
        rw [lookupKey_insertKey_self] at h1
        injection h1 with h1'
        subst h1'
        rw [getD_map_lt _ _ _ _ defSlot hi] at h2 ⊢
        rw [hemp, if_pos rfl] at h2 ⊢
        exact ite_tAfter_le_new _ _ _
      · rw [lookupKey_insertKey_ne _ _ _ _ hk] at h1
        by_cases hin : idx' < c.slots.length
        · rw [getD_map_lt _ _ _ _ defSlot hin] at h2 ⊢
          by_cases hoe : (c.slots.getD idx' defSlot).empty = true
          · rw [hoe, if_pos rfl] at h2 ⊢
            exact ite_tAfter_le_new _ _ _
          · rw [if_neg hoe] at h2 ⊢
            refine ite_tAfter_le_old _ _ _ _ (hInv k' idx' h1 h2) ?_
            intro hc
            have hlen1 : c.slots.length = 1 := by simpa using hc
            have hii : i = idx' := by omega
            rw [hii] at hemp
            exact hoe hemp
        · rw [getD_ge _ _ _ (by rw [List.length_map]; omega)] at h2
          simp [defSlot] at h2
    | none =>
      rw [addCore_nofit c k v e hle]
      intro k' idx' h1 h2
      dsimp only at h1 h2 ⊢
      by_cases hk : k' = k
      · subst hk
        rw [lookupKey_insertKey_self] at h1
        injection h1 with h1'
        subst h1'
        rw [getD_append_len] at h2 ⊢
        exact ite_tAfter_le_new _ _ _
      · rw [lookupKey_insertKey_ne _ _ _ _ hk] at h1
        rcases Nat.lt_trichotomy idx' c.slots.length with hin | hin | hin
        · rw [getD_append_lt _ _ _ _ hin] at h2 ⊢
          refine ite_tAfter_le_old _ _ _ _ (hInv k' idx' h1 h2) ?_
          intro hc
          have hlen1 : c.slots.length + 1 = 1 := by simpa using hc
          omega
        · subst hin
          rw [getD_append_len] at h2 ⊢
          exact ite_tAfter_le_new _ _ _
        · rw [getD_ge _ _ _ (by rw [List.length_append]; simp; omega)] at h2
          simp [defSlot] at h2

theorem inv_stepOp {V : Type} [Inhabited V] (c : Cache V) (op : Op V)
    (hInv : CacheInv c) : CacheInv (stepOp c op) := by
  cases op with
  | add k v e => exact inv_addC c k v e hInv
  | get k => exact inv_getC c k hInv
  | update k v => exact inv_updateC c k v hInv
  | extend k d => exact inv_extendC c k d hInv
  | delete k => exact inv_deleteC c k hInv
  | clean now => exact inv_cleanC c now

theorem inv_runOps {V : Type} [Inhabited V] (c : Cache V) (ops : List (Op V))
    (hInv : CacheInv c) : CacheInv (runOps c ops) := by
  induction ops generalizing c with
  | nil => exact hInv
  | cons op rest ih => exact ih (stepOp c op) (inv_stepOp c op hInv)

theorem inv_initC {V : Type} [Inhabited V] (refresh : Bool) (rd : Int) :
    CacheInv (initC V refresh rd) := by
  intro k idx h1 h2
  simp [initC, lookupKey] at h1

/-! ### Iterator lemmas -/

theorem iterAdvance_state {V : Type} [Inhabited V] (l : List Nat) (n : Nat) :
    ∀ (it : BucketIter V) (pos : Nat) (c : Cache V), it.list = l →
      pos ≤ l.length →
      (iterAdvance n ((it, pos), c)).1.1.list = l ∧
      (iterAdvance n ((it, pos), c)).1.2 = min (pos + n) l.length := by
  induction n with
  | zero =>
    intro it pos c hl hp
    refine ⟨hl, ?_⟩
    show pos = min (pos + 0) l.length
    omega
  | succ m ih =>
    intro it pos c hl hp
    rw [iterAdvance]
    dsimp only
    by_cases hlt : pos < it.list.length
    · simp only [iterNext, if_pos hlt]
      have hrec := ih
        { list := it.list
          key := it.list.getD pos 0
          item := resultItem (getC c (it.list.getD pos 0)).1 }
        (pos + 1) (getC c (it.list.getD pos 0)).2 hl
        (by rw [hl] at hlt; omega)
      refine ⟨hrec.1, ?_⟩
      rw [hrec.2]
      omega
    · simp only [iterNext, if_neg hlt]
      have hrec := ih it pos c hl hp
      refine ⟨hrec.1, ?_⟩
      rw [hrec.2]
      rw [hl] at hlt
      omega

/-! ### Composite-key lemmas -/

theorem compositeKey_data (n k : String) :
    (bucketCompositeKey n k).data = n.data ++ sepChar :: k.data := by
  have hsep : ("-" : String).data = [sepChar] := rfl
  simp [bucketCompositeKey, String.data_append, hsep, sepChar]

theorem sep_split_inj :
    ∀ (a c b d : List Char), sepChar ∉ a → sepChar ∉ c →
      a ++ sepChar :: b = c ++ sepChar :: d → a = c ∧ b = d := by
  intro a
  induction a with
  | nil =>
    intro c b d _ hc h
    cases c with
    | nil => simpa using h
    | cons x xs =>
      simp only [List.nil_append, List.cons_append, List.cons.injEq] at h
      exact absurd (h.1 ▸ List.mem_cons_self x xs) hc
  | cons y ys ih =>
    intro c b d ha hc h
    cases c with
    | nil =>
      simp only [List.nil_append, List.cons_append, List.cons.injEq] at h
      exact absurd (h.1 ▸ List.mem_cons_self y ys) ha
    | cons x xs =>
      simp only [List.cons_append, List.cons.injEq] at h
      obtain ⟨hxy, htl⟩ := h
      have ha' : sepChar ∉ ys := fun hm => ha (List.mem_cons_of_mem y hm)
      have hc' : sepChar ∉ xs := fun hm => hc (List.mem_cons_of_mem x hm)
      obtain ⟨h1, h2⟩ := ih xs b d ha' hc' htl
      exact ⟨by rw [hxy, h1], h2⟩

theorem string_eq_of_data (s t : String) (h : s.data = t.data) : s = t := by
  obtain ⟨a⟩ := s
  obtain ⟨b⟩ := t
  exact congrArg String.mk h

/-! ## The claims -/

/-- C1, counterexample: a key whose slot expired at time 5 is still mapped
and not tombstoned; at time 10 (expiration passed, no sweep run) `get`
still returns the stored value and does not remove the mapping, so the
claim "Get fails with NotFound for every mapped key whose expiration has
passed" is false on the code. -/
theorem c1_counterexample :
    lookupKey cAfterAdd.keys 3 = some 0 ∧
    (cAfterAdd.slots.getD 0 defSlot).empty = false ∧
    (cAfterAdd.slots.getD 0 defSlot).expiresAt = 5 ∧
    tAfter 10 (cAfterAdd.slots.getD 0 defSlot).expiresAt = true ∧
    (getC cAfterAdd 3).1 = .ok 7 ∧
    (getC cAfterAdd 3).2 = cAfterAdd :=
  ⟨by decide, by decide, by decide, by decide, rfl, rfl⟩

/-- C1 (amended): `get` never consults the expiration time; it fails with
`NotFound` (removing the stale mapping) exactly when the mapped slot is
tombstoned, and returns the stored value whenever the mapped slot is not
tombstoned — even if the slot's expiration has already passed.  Expiry is
enforced only by the janitor sweep. -/
theorem c1_get_checks_only_tombstone {V : Type} [Inhabited V] (c : Cache V)
    (k idx : Nat) (h1 : lookupKey c.keys k = some idx) :
    ((c.slots.getD idx defSlot).empty = true →
      getC c k = (.error .dne, { c with keys := eraseKey c.keys k })) ∧
    ((c.slots.getD idx defSlot).empty = false →
      (getC c k).1 = .ok ((c.slots.getD idx defSlot).item)) :=
  ⟨fun h2 => getC_mapped_dead c k idx h1 h2,
   fun h2 => getC_mapped_live c k idx h1 h2⟩

/-- C1, witness for the amended theorem at concrete states. -/
theorem c1_witness :
    getC cStale 3 = (.error .dne, { cStale with keys := eraseKey cStale.keys 3 }) ∧
    (getC cAfterAdd 3).1 = .ok ((cAfterAdd.slots.getD 0 defSlot).item) :=
  ⟨(c1_get_checks_only_tombstone cStale 3 0 (by decide)).1 (by decide),
   (c1_get_checks_only_tombstone cAfterAdd 3 0 (by decide)).2 (by decide)⟩

/-- C2: in every state reachable from a fresh store by any sequence of
add / get / update / extend / delete / janitor-sweep operations, the cached
`nextExp` is at most the expiration of every live (index-mapped,
non-tombstoned) slot — it may be stale-low but never stale-high. -/
theorem c2_nextExp_lower_bound {V : Type} [Inhabited V] (refresh : Bool)
    (rd : Int) (ops : List (Op V)) (k idx : Nat)
    (h1 : lookupKey (runOps (initC V refresh rd) ops).keys k = some idx)
    (h2 : ((runOps (initC V refresh rd) ops).slots.getD idx defSlot).empty = false) :
    (runOps (initC V refresh rd) ops).nextExp ≤
      ((runOps (initC V refresh rd) ops).slots.getD idx defSlot).expiresAt :=
  inv_runOps (initC V refresh rd) ops (inv_initC refresh rd) k idx h1 h2

/-- C2, witness: after two adds and a sweep that tombstones one of them,
`nextExp` bounds the surviving live slot's expiry. -/
theorem c2_witness :
    (runOps (initC Nat false 0) [Op.add 3 7 5, Op.add 4 8 2, Op.clean 3]).nextExp ≤
      ((runOps (initC Nat false 0)
        [Op.add 3 7 5, Op.add 4 8 2, Op.clean 3]).slots.getD 0 defSlot).expiresAt :=
  c2_nextExp_lower_bound false 0 [Op.add 3 7 5, Op.add 4 8 2, Op.clean 3] 3 0
    (by decide) (by decide)

/-- C3, code-bug evidence: `Add` with `expiresIn == 0` stores
`time.Unix(math.MaxInt64, 0)`, but in Go that int64 arithmetic overflows, so
the "never" sentinel is a hugely NEGATIVE time (before year 1), not a
maximal one; the very first sweep (here at time 100) finds
`now.After(expiresAt)` true, tombstones the entry and hands it to the
expiration callback — contradicting the claim (and the code's own doc
comment) that such an entry is never expired. -/
theorem c3_never_sentinel_expires_at_first_sweep :
    (AddT (initC Nat false 0) ("k") 7 0 100).1 = .ok () ∧
    expiryNever < 0 ∧
    ((AddT (initC Nat false 0) ("k") 7 0 100).2.slots.getD 0 defSlot).expiresAt =
      expiryNever ∧
    tAfter 100 expiryNever = true ∧
    ((cleanC ((AddT (initC Nat false 0) ("k") 7 0 100).2) 100).1.slots.getD 0
      defSlot).empty = true ∧
    (cleanC ((AddT (initC Nat false 0) ("k") 7 0 100).2) 100).2 =
      [{ item := 7, expiresAt := expiryNever, empty := false }] :=
  ⟨rfl, by decide, by decide, by decide, by decide, by decide⟩

/-- C4, code-bug evidence: on a store with two tombstoned slots, a single
successful `add` overwrites BOTH slots with the new entry (the reuse loop
has no `break`), maps the key to the last one, and thus does not leave
"every other slot unchanged" as the claim states. -/
theorem c4_add_writes_every_tombstoned_slot :
    (addC cTwoTomb 3 7 5).1 = .ok () ∧
    lookupKey (addC cTwoTomb 3 7 5).2.keys 3 = some 1 ∧
    (addC cTwoTomb 3 7 5).2.slots =
      [{ item := 7, expiresAt := 5, empty := false },
       { item := 7, expiresAt := 5, empty := false }] ∧
    (addC cTwoTomb 3 7 5).2.slots.getD 0 defSlot ≠ cTwoTomb.slots.getD 0 defSlot :=
  ⟨rfl, by decide, by decide, by decide⟩

/-- C5: an `add` for a fingerprint already mapped to a live slot fails with
`Collision` and returns the store completely unchanged (the collision check
precedes every mutation). -/
theorem c5_add_collision_state_unchanged {V : Type} [Inhabited V] (c : Cache V)
    (k idx : Nat) (v : V) (e : Int)
    (h1 : lookupKey c.keys k = some idx)
    (_h2 : (c.slots.getD idx defSlot).empty = false) :
    addC c k v e = (.error .collision, c) :=
  addC_of_mapped c k idx v e h1

/-- C5, witness: re-adding the live key of `cAfterAdd` collides and leaves
the state untouched. -/
theorem c5_witness : addC cAfterAdd 3 9 50 = (.error .collision, cAfterAdd) :=
  c5_add_collision_state_unchanged cAfterAdd 3 0 9 50 (by decide) (by decide)

/-- C6, counterexample: on a key mapped to a TOMBSTONED slot (a stale
mapping left by the janitor), `update` still succeeds — but the subsequent
`get` fails with `NotFound` instead of returning the new value, so the
claim is false for "every mapped key". -/
theorem c6_counterexample :
    lookupKey cDeadMapped.keys 3 = some 0 ∧
    (updateC cDeadMapped 3 9).1 = .ok () ∧
    (getC (updateC cDeadMapped 3 9).2 3).1 = .error .dne :=
  ⟨by decide, rfl, rfl⟩

/-- C6 (amended): for every key mapped to a live (non-tombstoned) slot,
`update` succeeds and replaces only the stored value — the slot's
expiration and tombstone flag, every other slot, the index mapping and
`nextExp` are unchanged — and a subsequent `get` returns the new value;
`update` of an unmapped key fails with `NotFound` and changes nothing.
(For a key mapped to a tombstoned slot, `update` still succeeds but `get`
returns `NotFound`, as the counterexample shows.) -/
theorem c6_update_replaces_only_value {V : Type} [Inhabited V] (c : Cache V)
    (k idx : Nat) (v2 : V) :
    (lookupKey c.keys k = some idx →
      (c.slots.getD idx defSlot).empty = false →
      (updateC c k v2).1 = .ok () ∧
      (updateC c k v2).2.keys = c.keys ∧
      (updateC c k v2).2.nextExp = c.nextExp ∧
      (updateC c k v2).2.refresh = c.refresh ∧
      (updateC c k v2).2.refreshDuration = c.refreshDuration ∧
      (updateC c k v2).2.slots.getD idx defSlot =
        { item := v2,
          expiresAt := (c.slots.getD idx defSlot).expiresAt,
          empty := false } ∧
      (∀ j, j ≠ idx →
        (updateC c k v2).2.slots.getD j defSlot = c.slots.getD j defSlot) ∧
      (getC (updateC c k v2).2 k).1 = .ok v2) ∧
    (lookupKey c.keys k = none → updateC c k v2 = (.error .dne, c)) := by
  constructor
  · intro h1 h2
    have hin : idx < c.slots.length := lt_length_of_getD_nonempty c.slots idx h2
    have hkeys : (updateC c k v2).2.keys = c.keys := by
      simp only [updateC, h1]
    have hslot : (updateC c k v2).2.slots.getD idx defSlot =
        { item := v2,
          expiresAt := (c.slots.getD idx defSlot).expiresAt,
          empty := false } := by
      simp only [updateC, h1]
      rw [getD_set_self _ _ _ _ hin]
      rw [show ({ c.slots.getD idx defSlot with item := v2 } : Slot V) =
        { item := v2, expiresAt := (c.slots.getD idx defSlot).expiresAt,
          empty := (c.slots.getD idx defSlot).empty } from rfl, h2]
    refine ⟨?_, hkeys, ?_, ?_, ?_, hslot, ?_, ?_⟩
    · simp only [updateC, h1]
    · simp only [updateC, h1]
    · simp only [updateC, h1]
    · simp only [updateC, h1]
    · intro j hj
      simp only [updateC, h1]
      exact getD_set_ne _ _ _ _ _ (fun hh => hj hh.symm)
    · have hk' : lookupKey (updateC c k v2).2.keys k = some idx := by
        rw [hkeys]
        exact h1
      have hs' : ((updateC c k v2).2.slots.getD idx defSlot).empty = false := by
        rw [hslot]
      have hlive := getC_mapped_live (updateC c k v2).2 k idx hk' hs'
      rw [hlive, hslot]
  · intro h1
    simp [updateC, h1]

/-- C6, witness for both branches of the amended theorem. -/
theorem c6_witness :
    (getC (updateC cAfterAdd 3 9).2 3).1 = .ok 9 ∧
    updateC (initC Nat false 0) 4 9 = (.error .dne, initC Nat false 0) := by
  have h := (c6_update_replaces_only_value cAfterAdd 3 0 9).1 (by decide) (by decide)
  have h' := (c6_update_replaces_only_value (initC Nat false 0) 4 0 9).2 (by decide)
  exact ⟨h.2.2.2.2.2.2.2, h'⟩

/-- C7, counterexample: the membership separator is "-", which CAN occur in
Go bucket names and keys (the repository's own tests use "my-bucket").  The
distinct pairs ("a", "b-c") and ("a-b", "c") produce the same composite
string — hence the same fingerprint — and the composite of ("a", "b") is
itself the flat key "a-b", so neither "never equal" part of the claim holds
by construction. -/
theorem c7_counterexample :
    bucketCompositeKey ("a") ("b-c") = bucketCompositeKey ("a-b") ("c") ∧
    (("a", "b-c") : String × String) ≠ (("a-b", "c") : String × String) ∧
    fingerprint (bucketCompositeKey ("a") ("b-c")) =
      fingerprint (bucketCompositeKey ("a-b") ("c")) ∧
    bucketCompositeKey ("a") ("b") = ("a-b") ∧
    fingerprint (bucketCompositeKey ("a") ("b")) = fingerprint ("a-b") := by
  refine ⟨by decide, by decide, ?_, by decide, ?_⟩
  · exact congrArg fingerprint (by decide)
  · exact congrArg fingerprint (by decide)

/-- C7 (amended): provided the separator "-" occurs in neither bucket name,
the composite strings of two (bucket, key) pairs are equal exactly when the
pairs are equal; and the composite never equals a flat key that does not
contain the separator.  (Without that proviso the counterexample applies.) -/
theorem c7_composite_injective_when_sepfree (n1 k1 n2 k2 f : String)
    (hn1 : sepChar ∉ n1.data) (hn2 : sepChar ∉ n2.data)
    (hf : sepChar ∉ f.data) :
    (bucketCompositeKey n1 k1 = bucketCompositeKey n2 k2 ↔
      (n1 = n2 ∧ k1 = k2)) ∧
    bucketCompositeKey n1 k1 ≠ f := by
  constructor
  · constructor
    · intro h
      have hd := congrArg String.data h
      rw [compositeKey_data, compositeKey_data] at hd
      obtain ⟨h1, h2⟩ := sep_split_inj n1.data n2.data k1.data k2.data hn1 hn2 hd
      exact ⟨string_eq_of_data _ _ h1, string_eq_of_data _ _ h2⟩
    · rintro ⟨rfl, rfl⟩
      rfl
  · intro h
    have hmem : sepChar ∈ (bucketCompositeKey n1 k1).data := by
      rw [compositeKey_data]
      exact List.mem_append_right _ (List.mem_cons_self _ _)
    rw [h] at hmem
    exact hf hmem

/-- C7, witness for the amended theorem at separator-free strings. -/
theorem c7_witness :
    (bucketCompositeKey ("a") ("b") = bucketCompositeKey ("a") ("b") ↔
      (("a" : String) = ("a") ∧ ("b" : String) = ("b"))) ∧
    bucketCompositeKey ("a") ("b") ≠ ("xy") :=
  c7_composite_injective_when_sepfree ("a") ("b") ("a") ("b") ("xy")
    (by decide) (by decide) (by decide)

/-- C8: starting from a fresh iterator over membership list `l`, the k-th
call to `Next` (k counted from 0) returns `true` for every `k < l.length`,
captures the fingerprint `l[k]` (insertion order, each position exactly
once) and advances the cursor to `k + 1`; the captured item is the `get`
result with a failed resolution silently mapped to "no value"; once the
list is exhausted `Next` returns `false` and leaves the iterator
unchanged. -/
theorem c8_iterator_next_semantics {V : Type} [Inhabited V] (l : List Nat)
    (c : Cache V) (k : Nat) :
    (k < l.length →
      (iterNext (iterAdvance k (freshIter l, c)).1.1
        (iterAdvance k (freshIter l, c)).1.2
        (iterAdvance k (freshIter l, c)).2).1 = true ∧
      (iterNext (iterAdvance k (freshIter l, c)).1.1
        (iterAdvance k (freshIter l, c)).1.2
        (iterAdvance k (freshIter l, c)).2).2.1.1.key = l.getD k 0 ∧
      (iterNext (iterAdvance k (freshIter l, c)).1.1
        (iterAdvance k (freshIter l, c)).1.2
        (iterAdvance k (freshIter l, c)).2).2.1.2 = k + 1 ∧
      (iterNext (iterAdvance k (freshIter l, c)).1.1
        (iterAdvance k (freshIter l, c)).1.2
        (iterAdvance k (freshIter l, c)).2).2.1.1.item =
          resultItem (getC (iterAdvance k (freshIter l, c)).2 (l.getD k 0)).1) ∧
    (l.length ≤ k →
      (iterNext (iterAdvance k (freshIter l, c)).1.1
        (iterAdvance k (freshIter l, c)).1.2
        (iterAdvance k (freshIter l, c)).2).1 = false ∧
      (iterNext (iterAdvance k (freshIter l, c)).1.1
        (iterAdvance k (freshIter l, c)).1.2
        (iterAdvance k (freshIter l, c)).2).2.1 =
          (iterAdvance k (freshIter l, c)).1) := by
  simp only [freshIter]
  obtain ⟨hlist, hpos⟩ :=
    iterAdvance_state l k { list := l, key := 0, item := none } 0 c rfl
      (Nat.zero_le _)
  constructor
  · intro hk
    have hposk : (iterAdvance k
        (({ list := l, key := 0, item := none }, 0), c)).1.2 = k := by
      rw [hpos]
      omega
    have hcond : (iterAdvance k
          (({ list := l, key := 0, item := none }, 0), c)).1.2 <
        (iterAdvance k
          (({ list := l, key := 0, item := none }, 0), c)).1.1.list.length := by
      rw [hposk, hlist]
      exact hk
    refine ⟨?_, ?_, ?_, ?_⟩
    · simp only [iterNext, if_pos hcond]
    · simp only [iterNext, if_pos hcond]
      simp only [hlist, hposk]
    · simp only [iterNext, if_pos hcond]
      simp only [hposk]
    · simp only [iterNext, if_pos hcond]
      simp only [hlist, hposk]
  · intro hk
    have hposlen : (iterAdvance k
        (({ list := l, key := 0, item := none }, 0), c)).1.2 = l.length := by
      rw [hpos]
      omega
    have hcond : ¬ ((iterAdvance k
          (({ list := l, key := 0, item := none }, 0), c)).1.2 <
        (iterAdvance k
          (({ list := l, key := 0, item := none }, 0), c)).1.1.list.length) := by
      rw [hposlen, hlist]
      omega
    refine ⟨?_, ?_⟩ <;>
      simp only [iterNext, if_neg hcond]

/-- C8, witness: over the one-element list `[5]` on an empty store, the
first `Next` returns `true` (even though resolution fails) and the second
returns `false`. -/
theorem c8_witness :
    (iterNext (iterAdvance 0 (freshIter [5], initC Nat false 0)).1.1
      (iterAdvance 0 (freshIter [5], initC Nat false 0)).1.2
      (iterAdvance 0 (freshIter [5], initC Nat false 0)).2).1 = true ∧
    (iterNext (iterAdvance 1 (freshIter [5], initC Nat false 0)).1.1
      (iterAdvance 1 (freshIter [5], initC Nat false 0)).1.2
      (iterAdvance 1 (freshIter [5], initC Nat false 0)).2).1 = false :=
  ⟨((c8_iterator_next_semantics [5] (initC Nat false 0) 0).1 (by decide)).1,
   ((c8_iterator_next_semantics [5] (initC Nat false 0) 1).2 (by decide)).1⟩

/-- C9, counterexample to "only a Get removes the stale mapping": in the
post-sweep state `cStale` the fingerprint is still mapped to a tombstoned
slot, and a `Delete` — not a `Get` — succeeds, removes the stale mapping,
and lets a later re-add succeed. -/
theorem c9_counterexample :
    lookupKey cStale.keys 3 = some 0 ∧
    (cStale.slots.getD 0 defSlot).empty = true ∧
    (deleteC cStale 3).1 = .ok () ∧
    lookupKey (deleteC cStale 3).2.keys 3 = none ∧
    (addC (deleteC cStale 3).2 3 8 20).1 = .ok () :=
  ⟨by decide, by decide, rfl, by decide, rfl⟩

/-- C9 (amended): after a janitor sweep tombstones an expired live slot,
the fingerprint remains in the index (the sweep never touches the index);
in that state a re-add fails with `Collision` and changes nothing; a `get`
of that key fails with `NotFound` and removes the stale mapping, after
which a re-add succeeds — and likewise a `delete` of that key (which
succeeds) also removes the stale mapping and unblocks a re-add, so `get`
is not the only such operation. -/
theorem c9_stale_mapping_after_sweep {V : Type} [Inhabited V] (c : Cache V)
    (k idx : Nat) (v v' : V) (e now : Int)
    (h1 : lookupKey c.keys k = some idx)
    (h2 : (c.slots.getD idx defSlot).empty = false)
    (h3 : tAfter now (c.slots.getD idx defSlot).expiresAt = true) :
    (cleanC c now).1.keys = c.keys ∧
    ((cleanC c now).1.slots.getD idx defSlot).empty = true ∧
    addC (cleanC c now).1 k v e = (.error .collision, (cleanC c now).1) ∧
    (getC (cleanC c now).1 k).1 = .error .dne ∧
    lookupKey (getC (cleanC c now).1 k).2.keys k = none ∧
    (addC ((getC (cleanC c now).1 k).2) k v' e).1 = .ok () ∧
    (deleteC (cleanC c now).1 k).1 = .ok () ∧
    lookupKey (deleteC (cleanC c now).1 k).2.keys k = none ∧
    (addC ((deleteC (cleanC c now).1 k).2) k v' e).1 = .ok () := by
  have hin : idx < c.slots.length := lt_length_of_getD_nonempty c.slots idx h2
  have hkeys : (cleanC c now).1.keys = c.keys := rfl
  have hslot : ((cleanC c now).1.slots.getD idx defSlot) =
      { c.slots.getD idx defSlot with empty := true } := by
    dsimp only [cleanC]
    rw [cleanLoop_slots, getD_map_lt _ _ _ _ defSlot hin]
    rw [cleanSlot, if_neg (by rw [h2]; simp), if_pos h3]
  have hl1 : lookupKey (cleanC c now).1.keys k = some idx := by
    rw [hkeys]
    exact h1
  have hemp : ((cleanC c now).1.slots.getD idx defSlot).empty = true := by
    rw [hslot]
  have hget := getC_mapped_dead (cleanC c now).1 k idx hl1 hemp
  refine ⟨hkeys, hemp, addC_of_mapped _ k idx v e hl1, ?_, ?_, ?_, ?_, ?_, ?_⟩
  · rw [hget]
  · rw [hget]
    exact lookupKey_eraseKey_self _ _
  · rw [hget]
    exact addC_ok_of_none _ _ _ _ (lookupKey_eraseKey_self _ _)
  · simp only [deleteC, hl1]
  · simp only [deleteC, hl1]
    exact lookupKey_eraseKey_self _ _
  · simp only [deleteC, hl1]
    exact addC_ok_of_none _ _ _ _ (lookupKey_eraseKey_self _ _)

/-- C9, witness at the concrete post-sweep scenario. -/
theorem c9_witness :
    (cleanC cAfterAdd 10).1.keys = cAfterAdd.keys ∧
    ((cleanC cAfterAdd 10).1.slots.getD 0 defSlot).empty = true ∧
    (addC ((deleteC (cleanC cAfterAdd 10).1 3).2) 3 9 20).1 = .ok () := by
  have h := c9_stale_mapping_after_sweep cAfterAdd 3 0 8 9 20 10
    (by decide) (by decide) (by decide)
  exact ⟨h.1, h.2.1, h.2.2.2.2.2.2.2.2⟩

/-- C10: the bucket add path always passes `expiresAt = now + expiresIn` to
the store — there is no never-expire special case — so on success the new
entry's slot expiry is `timeAdd now expiresIn`, and with `expiresIn = 0`
(for any representable `now`) that is exactly the insertion time `now`. -/
theorem c10_bucket_add_expiry {V : Type} [Inhabited V] (b : Bucket)
    (c : Cache V) (key : String) (item : V) (expiresIn now : Int)
    (hok : ((bucketAdd b c key item expiresIn now).1).1 = .ok ()) :
    (∃ idx,
      lookupKey ((bucketAdd b c key item expiresIn now).1).2.keys
        (fingerprint (bucketCompositeKey b.name key)) = some idx ∧
      ((bucketAdd b c key item expiresIn now).1).2.slots.getD idx defSlot =
        { item := item, expiresAt := timeAdd now expiresIn, empty := false }) ∧
    (expiresIn = 0 → -(2 ^ 63) ≤ now → now < 2 ^ 63 →
      timeAdd now expiresIn = now) := by
  constructor
  · have hnone := addC_none_of_ok c
      (fingerprint (bucketCompositeKey b.name key)) item
      (timeAdd now expiresIn) hok
    exact addC_spec c _ item (timeAdd now expiresIn) hnone
  · intro h0 hlo hhi
    subst h0
    show wrap64 (now + 0) = now
    rw [show now + (0 : Int) = now by omega]
    exact wrap64_eq_self now hlo hhi

/-- C10, witness: adding through a bucket with `expiresIn = 0` at time 100
stores a slot expiring exactly at 100. -/
theorem c10_witness :
    (∃ idx,
      lookupKey ((bucketAdd { name := ("b"), list := [] } (initC Nat false 0)
          ("x") 7 0 100).1).2.keys
        (fingerprint (bucketCompositeKey ("b") ("x"))) = some idx ∧
      ((bucketAdd { name := ("b"), list := [] } (initC Nat false 0)
          ("x") 7 0 100).1).2.slots.getD idx defSlot =
        { item := 7, expiresAt := timeAdd 100 0, empty := false }) ∧
    timeAdd 100 0 = 100 := by
  have h := c10_bucket_add_expiry { name := ("b"), list := [] }
    (initC Nat false 0) ("x") 7 0 100 rfl
  exact ⟨h.1, h.2 rfl (by decide) (by decide)⟩

end JCache
